import Mathlib

/-!
Verification of the med-bot reminder scheduler (`scheduler.py`).

Shallow embedding: datetimes are (calendar day, second-of-day) pairs,
the adherence query during a reminder cycle is an oracle `taken : Nat → Bool`
giving the result of the n-th `has_taken_medication` call of that cycle
(the underlying log table can change concurrently), and the notification
transport outcome is an oracle `sendOk : Nat → Bool` for the n-th send.
A per-user reminder cycle produces a trace of adherence checks and sends,
each send stamped with its offset (in seconds) from the cycle start, the
offsets accounting for the one-hour sleep after every countdown send.
-/

namespace MedBot

/-- A parsed `HH:MM` time of day (result of `datetime.strptime(s, "%H:%M")`). -/
structure Tod where
  hour : Nat
  minute : Nat
deriving DecidableEq, Repr

/-- A timestamp: calendar day number and second within the day.
`datetime` values compare by `toSecs`; a well-formed timestamp has
`0 ≤ sec < 86400`. -/
structure DateTime where
  day : Int
  sec : Int
deriving DecidableEq, Repr

/-- Total seconds represented by a timestamp. -/
def DateTime.toSecs (t : DateTime) : Int :=
  t.day * 86400 + t.sec

/-- `datetime.strptime(med_time_str, "%H:%M").replace(year=now.year,
month=now.month, day=now.day)` — today's date combined with the
configured time of day (scheduler.py line 55). -/
def medTimeToday (now : DateTime) (tm : Tod) : DateTime :=
  ⟨now.day, (tm.hour : Int) * 3600 + (tm.minute : Int) * 60⟩

/-- Lines 59–61: `if now > med_time_today: med_time_today += timedelta(days=1)`.
The comparison is strict `>`: at `now == candidate` the occurrence stays today. -/
def nextOccurrence (tm : Tod) (now : DateTime) : DateTime :=
  let c := medTimeToday now tm
  if c.toSecs < now.toSecs then ⟨c.day + 1, c.sec⟩ else c

/-- Line 63: `time_remaining = med_time_today - now`, in seconds. -/
def timeRemaining (now occ : DateTime) : Int :=
  occ.toSecs - now.toSecs

/-- Line 64: `hours_until = int(time_remaining.total_seconds() // 3600)`;
Python `//` is floor division. -/
def hoursUntil (remaining : Int) : Int :=
  Int.fdiv remaining 3600

/-- One character-list step of byte-wise (codepoint) string comparison,
the collation SQLite uses for TEXT. -/
def memLe : List Char → List Char → Bool
  | [], _ => true
  | _ :: _, [] => false
  | a :: as, b :: bs =>
      a.toNat < b.toNat || (a.toNat == b.toNat && memLe as bs)

/-- Codepoint-lexicographic `≤` on strings (SQLite TEXT comparison). -/
def strLe (a b : String) : Bool :=
  memLe a.data b.data

/-- A row of the `logs` table: `{user_id, action, timestamp}`; timestamps
are stored as `"YYYY-MM-DD HH:MM"` strings. -/
structure LogEntry where
  user_id : Nat
  action : String
  timestamp : String
deriving DecidableEq, Repr

/-- `has_taken_medication` (scheduler.py lines 34–43): selects rows with
`user_id = ? AND action = 'medication' AND timestamp >= ?` where the
parameter is `today.strftime("%Y-%m-%d")`, and returns whether any row
matched. Note the query has no upper bound on the timestamp. -/
def has_taken_medication (logs : List LogEntry) (todayStr : String) (uid : Nat) : Bool :=
  (logs.filter (fun e =>
    e.user_id == uid && e.action == "medication" && strLe todayStr e.timestamp)).length > 0

/-- Modelled from the spec: the adherence window is "the period from the
start of the current calendar day (local) to now"; a timestamp is in the
window when `start-of-day ≤ timestamp ≤ now` (as `"YYYY-MM-DD..."` strings,
whose codepoint order is chronological order). -/
def withinAdherenceWindow (todayStr nowStr ts : String) : Bool :=
  strLe todayStr ts && strLe ts nowStr

/-- Modelled from the spec: "Taken today" holds iff there exists a LogEntry
with `action == "medication"` and `timestamp` within the adherence window. -/
def hasTakenTodaySpec (logs : List LogEntry) (todayStr nowStr : String) (uid : Nat) : Bool :=
  logs.any (fun e =>
    e.user_id == uid && e.action == "medication" &&
      withinAdherenceWindow todayStr nowStr e.timestamp)

/-- Take up to two leading decimal digits (the greedy width of a
`strptime` numeric directive), returning them and the rest. -/
def takeUpTo2Digits : List Char → List Char × List Char
  | [] => ([], [])
  | [c] => if c.isDigit then ([c], []) else ([], [c])
  | c1 :: c2 :: rest =>
      if c1.isDigit then
        if c2.isDigit then ([c1, c2], rest) else ([c1], c2 :: rest)
      else ([], c1 :: c2 :: rest)

/-- Numeric value of a digit string. -/
def digitsVal (ds : List Char) : Nat :=
  ds.foldl (fun a c => 10 * a + (c.toNat - 48)) 0

/-- `datetime.strptime(s, "%H:%M")` as an option: `%H` is a one- or
two-digit hour `0..23`, `%M` a one- or two-digit minute `0..59`, with a
literal `:` between them and nothing else; any other input raises
`ValueError` (modelled as `none`). -/
def strptimeHM (s : String) : Option Tod :=
  match takeUpTo2Digits s.data with
  | ([], _) => none
  | (hds, ':' :: rest) =>
      match takeUpTo2Digits rest with
      | ([], _) => none
      | (mds, []) =>
          if digitsVal hds ≤ 23 && digitsVal mds ≤ 59 then
            some ⟨digitsVal hds, digitsVal mds⟩
          else none
      | (_, _ :: _) => none
  | (_, _) => none

/-- Decidable equality on `Except`, so that concrete cycle results can be
checked by `decide`. -/
instance exceptDecEq {ε α : Type} [DecidableEq ε] [DecidableEq α] :
    DecidableEq (Except ε α) := fun a b =>
  match a, b with
  | Except.ok x, Except.ok y =>
      if h : x = y then isTrue (by rw [h])
      else isFalse (by intro he; exact h (Except.ok.injEq .. ▸ he))
  | Except.error x, Except.error y =>
      if h : x = y then isTrue (by rw [h])
      else isFalse (by intro he; exact h (Except.error.injEq .. ▸ he))
  | Except.ok _, Except.error _ => isFalse (by intro he; exact Except.noConfusion he)
  | Except.error _, Except.ok _ => isFalse (by intro he; exact Except.noConfusion he)

/-- A row of the `users` table, the fields the scheduler reads. -/
structure User where
  id : Nat
  name : String
  email : String
  med_name : String
  dosage : String
  med_time : String
deriving DecidableEq, Repr

/-- One observable step of a per-user reminder cycle:
`check r` is a `has_taken_medication` call returning `r`;
`countdown hour t` is the hourly reminder email stating `hour` hour(s)
left, sent `t` seconds after the cycle started;
`final t` is the single "time to take it now" email at offset `t`. -/
inductive Ev where
  | check (r : Bool) : Ev
  | countdown (hour : Int) (t : Int) : Ev
  | final (t : Int) : Ev
deriving DecidableEq, Repr

/-- Whether a trace step is a notification send. -/
def Ev.isSend : Ev → Bool
  | .check _ => false
  | .countdown _ _ => true
  | .final _ => true

/-- `send_email` (scheduler.py lines 18–32): the SMTP transport may fail
(`ok = false`), but the function wraps the attempt in `try/except` and
only prints, so it returns normally either way — it never propagates an
exception to the caller. The returned string is the line it prints. -/
def send_email (ok : Bool) (to_email : String) : Except String String :=
  if ok then Except.ok ("Email sent to " ++ to_email)
  else Except.ok ("Failed to send email to " ++ to_email)

/-- Lines 73–88, `for hour in range(hours_until, 0, -1)`: the list of hour
counts `[h, h-1, ..., 1]` (empty when `h ≤ 0`), built from `h.toNat`
iterations. -/
def rangeDownAux (h : Int) : Nat → List Int
  | 0 => []
  | n + 1 => h :: rangeDownAux (h - 1) n

/-- `range(h, 0, -1)` for a Python int `h`. -/
def rangeDown (h : Int) : List Int :=
  rangeDownAux h h.toNat

/-- The countdown loop body (lines 73–88): for each remaining hour count,
re-query adherence (`taken ci`); if it returns true, break (the trace ends
with that `check true`); otherwise send the countdown email (outcome
`sendOk si`, which the code ignores) and sleep 3600 seconds before the
next iteration. Returns the trace and the lines `send_email` printed. -/
def countdownTrace (taken sendOk : Nat → Bool) (u : User) :
    Nat → Nat → Int → List Int → List Ev × List String
  | _, _, _, [] => ([], [])
  | ci, si, t, hour :: rest =>
      if taken ci then ([Ev.check true], [])
      else
        let log := match send_email (sendOk si) u.email with
          | Except.ok s => s
          | Except.error s => s
        let r := countdownTrace taken sendOk u (ci + 1) (si + 1) (t + 3600) rest
        (Ev.check false :: Ev.countdown hour t :: r.1, log :: r.2)

/-- One user's reminder cycle (scheduler.py lines 52–97).  Parse the
configured time (a parse failure is the uncaught `ValueError` of line 55,
modelled as `Except.error`); compute `next_occurrence`, `time_remaining`
and `hours_until` from the sweep's single `now`; skip if already taken
(line 67); run the hourly countdown when `hours_until > 0` (lines 71–88);
otherwise send the single final reminder when `time_remaining ≤ 3600`
and adherence is still not logged (lines 90–97). `taken n` is the result
of the cycle's n-th `has_taken_medication` call, `sendOk n` the transport
outcome of its n-th send. -/
def userCycle (taken sendOk : Nat → Bool) (now : DateTime) (u : User) :
    Except Unit (List Ev × List String) :=
  match strptimeHM u.med_time with
  | none => Except.error ()
  | some tm =>
      let occ := nextOccurrence tm now
      let rem := timeRemaining now occ
      let h := hoursUntil rem
      if taken 0 then Except.ok ([Ev.check true], [])
      else if 0 < h then
        let r := countdownTrace taken sendOk u 1 0 0 (rangeDown h)
        Except.ok (Ev.check false :: r.1, r.2)
      else if rem ≤ 3600 then
        if taken 1 then Except.ok ([Ev.check false, Ev.check true], [])
        else
          let log := match send_email (sendOk 0) u.email with
            | Except.ok s => s
            | Except.error s => s
          Except.ok ([Ev.check false, Ev.check false, Ev.final 0], [log])
      else Except.ok ([Ev.check false], [])

/-- The check/send trace of a cycle, without the print log. -/
def cycleTrace (taken sendOk : Nat → Bool) (now : DateTime) (u : User) :
    Except Unit (List Ev) :=
  Except.map Prod.fst (userCycle taken sendOk now u)

/-- The notifications actually sent during a cycle. -/
def cycleSends (taken sendOk : Nat → Bool) (now : DateTime) (u : User) :
    Except Unit (List Ev) :=
  Except.map (fun p => p.1.filter Ev.isSend) (userCycle taken sendOk now u)

/-- Wall-clock seconds a cycle occupies: line 88 sleeps 3600 seconds after
every countdown send (the final-reminder branch does not sleep). -/
def cycleDuration (tr : List Ev) : Int :=
  3600 * ((tr.filter (fun e => match e with
    | Ev.countdown _ _ => true
    | _ => false)).length : Int)

/-- `check_reminders` (lines 45–97): read `now` once (line 50), then
process the users sequentially; each user's cycle starts `elapsed`
seconds after the sweep began (earlier users' sleeps delay later users),
yet is evaluated against the sweep-start `now`. An uncaught exception in
a user's cycle (the `strptime` `ValueError`) aborts the whole sweep.
`taken uid n` / `sendOk uid n` are the per-user oracles. -/
def check_reminders (taken sendOk : Nat → Nat → Bool) (now : DateTime) :
    List User → Int → Except Unit (List (Int × List Ev × List String))
  | [], _ => Except.ok []
  | u :: rest, elapsed =>
      match userCycle (taken u.id) (sendOk u.id) now u with
      | Except.error e => Except.error e
      | Except.ok (tr, logs) =>
          match check_reminders taken sendOk now rest (elapsed + cycleDuration tr) with
          | Except.error e => Except.error e
          | Except.ok rs => Except.ok ((elapsed, tr, logs) :: rs)

/-- The checks-and-sends trace of a countdown that runs through hour
counts `hs` without ever observing adherence, starting `t` seconds into
the cycle. -/
def fullTr : List Int → Int → List Ev
  | [], _ => []
  | v :: rest, t => Ev.check false :: Ev.countdown v t :: fullTr rest (t + 3600)

/-- The sends of such a countdown: one reminder per hour count, an hour
apart. -/
def sendsOf : List Int → Int → List Ev
  | [], _ => []
  | v :: rest, t => Ev.countdown v t :: sendsOf rest (t + 3600)

/-- Trace sanity: events may follow a `check false`; a send may appear
only immediately after a `check false`; nothing may follow a
`check true`. `prev` is the preceding event, if any. -/
def cycleOk : Option Ev → List Ev → Bool
  | _, [] => true
  | prev, e :: rest =>
      match prev with
      | some (Ev.check true) => false
      | some (Ev.final _) => false
      | some (Ev.check false) => cycleOk (some e) rest
      | _ => !e.isSend && cycleOk (some e) rest

/-- A sample user with an 08:00 medication time, for concrete evaluations. -/
def sampleUser : User :=
  ⟨1, "Alisha", "alisha@example.com", "Ibuprofen", "200mg", "08:00"⟩

/-- A sample user with a 00:30 medication time. -/
def sampleUserB : User :=
  ⟨3, "Bea", "bea@example.com", "Iron", "1 tablet", "00:30"⟩

/-- A user whose configured medication time is not a valid `%H:%M` time. -/
def badUser : User :=
  ⟨2, "Crash", "crash@example.com", "Aspirin", "100mg", "99:99"⟩

/-- An adherence oracle that always answers false (no log entry ever). -/
def neverTaken : Nat → Bool := fun _ => false

/-- An adherence oracle whose calls answer false, false, true, true, …
(a medication entry appears between this cycle's second and third query). -/
def takenFromThird : Nat → Bool := fun n => 2 ≤ n

/-- A log table holding one future-dated medication entry. -/
def futureLog : List LogEntry :=
  [⟨1, "medication", "2026-10-13 00:05"⟩]


/-- What the claim compares the sweep against: each user's decision cycle
run independently, every one evaluated at the same sweep-start `now`. -/
def enginePerUser (taken sendOk : Nat → Nat → Bool) (now : DateTime) :
    List User → Except Unit (List (List Ev))
  | [] => Except.ok []
  | u :: rest =>
      match cycleTrace (taken u.id) (sendOk u.id) now u with
      | Except.error e => Except.error e
      | Except.ok tr =>
          match enginePerUser taken sendOk now rest with
          | Except.error e => Except.error e
          | Except.ok rs => Except.ok (tr :: rs)

end MedBot

namespace MedBot

lemma rangeDownAux_length (h : Int) (n : Nat) : (rangeDownAux h n).length = n := by
  induction n generalizing h with
  | zero => rfl
  | succ n ih => simp [rangeDownAux, ih]

lemma rangeDown_length (h : Int) : (rangeDown h).length = h.toNat := by
  simp [rangeDown, rangeDownAux_length]

lemma fullTr_filter_isSend (hs : List Int) (t : Int) :
    (fullTr hs t).filter Ev.isSend = sendsOf hs t := by
  induction hs generalizing t with
  | nil => rfl
  | cons v rest ih => simp [fullTr, sendsOf, List.filter, Ev.isSend, ih]

lemma sendsOf_rangeDownAux (n : Nat) : ∀ (h t : Int),
    sendsOf (rangeDownAux h n) t =
      (List.range n).map (fun k : Nat => Ev.countdown (h - (k : Int)) (t + 3600 * (k : Int))) := by
  induction n with
  | zero => intro h t; rfl
  | succ n ih =>
      intro h t
      rw [List.range_succ_eq_map]
      simp only [rangeDownAux, sendsOf, ih, List.map_cons, List.map_map]
      rw [List.cons_eq_cons]
      constructor
      · simp [Ev.countdown.injEq]
      · apply List.map_congr_left
        intro k _
        simp only [Function.comp_apply, Ev.countdown.injEq]
        constructor
        · push_cast; ring
        · push_cast; ring

lemma sendsOf_rangeDown (h t : Int) :
    sendsOf (rangeDown h) t =
      (List.range h.toNat).map
        (fun k : Nat => Ev.countdown (h - (k : Int)) (t + 3600 * (k : Int))) := by
  simp [rangeDown, sendsOf_rangeDownAux]

lemma rangeDownAux_take (m : Nat) : ∀ (h : Int) (n : Nat), m ≤ n →
    (rangeDownAux h n).take m = rangeDownAux h m := by
  induction m with
  | zero => intro h n _; simp [rangeDownAux]
  | succ m ih =>
      intro h n hmn
      match n, hmn with
      | n + 1, hmn =>
          simp only [rangeDownAux, List.take_succ_cons]
          rw [ih (h - 1) n (Nat.succ_le_succ_iff.mp hmn)]

/-- If adherence is never observed during the loop, the countdown runs to
completion: one check and one send per hour count. -/
lemma countdownTrace_all_false (taken sendOk : Nat → Bool) (u : User) :
    ∀ (hs : List Int) (ci si : Nat) (t : Int),
      (∀ k, k < hs.length → taken (ci + k) = false) →
      (countdownTrace taken sendOk u ci si t hs).1 = fullTr hs t := by
  intro hs
  induction hs with
  | nil => intro ci si t _; rfl
  | cons v rest ih =>
      intro ci si t hf
      have h0 : taken ci = false := by
        have := hf 0 (by simp)
        simpa using this
      simp only [countdownTrace, h0, Bool.false_eq_true, if_false, fullTr]
      rw [ih (ci + 1) (si + 1) (t + 3600)]
      intro k hk
      have := hf (k + 1) (by simpa using Nat.succ_lt_succ hk)
      simpa [Nat.add_assoc, Nat.add_comm 1 k] using this

/-- If the m-th in-loop adherence check is the first to return true, the
countdown sends the first m reminders, then the check aborts it. -/
lemma countdownTrace_first_true (taken sendOk : Nat → Bool) (u : User) :
    ∀ (hs : List Int) (m : Nat) (ci si : Nat) (t : Int),
      m < hs.length →
      (∀ k, k < m → taken (ci + k) = false) →
      taken (ci + m) = true →
      (countdownTrace taken sendOk u ci si t hs).1 =
        fullTr (hs.take m) t ++ [Ev.check true] := by
  intro hs
  induction hs with
  | nil => intro m ci si t hm; exact absurd hm (by simp)
  | cons v rest ih =>
      intro m ci si t hm hf htrue
      match m with
      | 0 =>
          have h0 : taken ci = true := by simpa using htrue
          simp [countdownTrace, h0, fullTr]
      | m + 1 =>
          have h0 : taken ci = false := by
            have := hf 0 (Nat.succ_pos m)
            simpa using this
          simp only [countdownTrace, h0, Bool.false_eq_true, if_false,
            List.take_succ_cons, fullTr, List.cons_append]
          rw [ih m (ci + 1) (si + 1) (t + 3600) (by simpa using Nat.lt_of_succ_lt_succ hm)]
          · intro k hk
            have := hf (k + 1) (Nat.succ_lt_succ hk)
            simpa [Nat.add_assoc, Nat.add_comm 1 k] using this
          · simpa [Nat.add_assoc, Nat.add_comm 1 m] using htrue

/-- In a sane trace, every send is immediately preceded by a `check false`
(or, when the send opens the trace, the virtual predecessor `prev` is one). -/
lemma cycleOk_send_preceded :
    ∀ (pre : List Ev) (prev : Option Ev) (e : Ev) (suf : List Ev),
      cycleOk prev (pre ++ e :: suf) = true → e.isSend = true →
      (pre = [] ∧ prev = some (Ev.check false)) ∨
        pre.getLast? = some (Ev.check false) := by
  intro pre
  induction pre with
  | nil =>
      intro prev e suf hok hsend
      left
      refine ⟨rfl, ?_⟩
      simp only [List.nil_append, cycleOk] at hok
      match prev, hok with
      | some (Ev.check true), hok => exact absurd hok (by simp)
      | some (Ev.check false), _ => rfl
      | none, hok => simp [hsend] at hok
      | some (Ev.countdown v t), hok => simp [hsend] at hok
      | some (Ev.final t), hok => simp [hsend] at hok
  | cons x pre ih =>
      intro prev e suf hok hsend
      have hrest : cycleOk (some x) (pre ++ e :: suf) = true := by
        simp only [List.cons_append, cycleOk] at hok
        match prev, hok with
        | some (Ev.check true), hok => exact absurd hok (by simp)
        | some (Ev.check false), hok => exact hok
        | none, hok => simp only [Bool.and_eq_true] at hok; exact hok.2
        | some (Ev.countdown v t), hok => simp only [Bool.and_eq_true] at hok; exact hok.2
        | some (Ev.final t), hok => simp at hok
      rcases ih (some x) e suf hrest hsend with ⟨hnil, hx⟩ | hlast
      · right
        subst hnil
        simpa using hx
      · right
        match pre, hlast with
        | y :: pre, hlast => simpa [List.getLast?_cons_cons] using hlast

/-- In a sane trace nothing follows a `check true`. -/
lemma cycleOk_true_is_last :
    ∀ (pre : List Ev) (prev : Option Ev) (suf : List Ev),
      cycleOk prev (pre ++ Ev.check true :: suf) = true → suf = [] := by
  intro pre
  induction pre with
  | nil =>
      intro prev suf hok
      simp only [List.nil_append, cycleOk] at hok
      have htail : cycleOk (some (Ev.check true)) suf = true := by
        match prev, hok with
        | some (Ev.check true), hok => exact absurd hok (by simp)
        | some (Ev.check false), hok => exact hok
        | none, hok => simp only [Bool.and_eq_true] at hok; exact hok.2
        | some (Ev.countdown v t), hok => simp only [Bool.and_eq_true] at hok; exact hok.2
        | some (Ev.final t), hok => simp at hok
      match suf, htail with
      | [], _ => rfl
      | e :: suf, htail => exact absurd htail (by simp [cycleOk])
  | cons x pre ih =>
      intro prev suf hok
      have hrest : cycleOk (some x) (pre ++ Ev.check true :: suf) = true := by
        simp only [List.cons_append, cycleOk] at hok
        match prev, hok with
        | some (Ev.check true), hok => exact absurd hok (by simp)
        | some (Ev.check false), hok => exact hok
        | none, hok => simp only [Bool.and_eq_true] at hok; exact hok.2
        | some (Ev.countdown v t), hok => simp only [Bool.and_eq_true] at hok; exact hok.2
        | some (Ev.final t), hok => simp at hok
      exact ih (some x) suf hrest

/-- Every trace the countdown loop can produce is sane, whatever the
oracles do, provided it is not entered straight after a `check true`. -/
lemma countdownTrace_cycleOk (taken sendOk : Nat → Bool) (u : User) :
    ∀ (hs : List Int) (ci si : Nat) (t : Int) (prev : Option Ev),
      prev ≠ some (Ev.check true) → (∀ a, prev ≠ some (Ev.final a)) →
      cycleOk prev ((countdownTrace taken sendOk u ci si t hs).1) = true := by
  intro hs
  induction hs with
  | nil =>
      intro ci si t prev _ _
      simp [countdownTrace, cycleOk]
  | cons v rest ih =>
      intro ci si t prev hprev hfin
      by_cases hc : taken ci
      · simp only [countdownTrace, hc, if_true]
        match prev, hprev, hfin with
        | some (Ev.check true), hprev, _ => exact absurd rfl hprev
        | some (Ev.final a), _, hfin => exact absurd rfl (hfin a)
        | some (Ev.check false), _, _ => simp [cycleOk]
        | none, _, _ => simp [cycleOk, Ev.isSend]
        | some (Ev.countdown a b), _, _ => simp [cycleOk, Ev.isSend]
      · have hc' : taken ci = false := by simpa using hc
        have htail :
            cycleOk (some (Ev.countdown v t))
              ((countdownTrace taken sendOk u (ci + 1) (si + 1) (t + 3600) rest).1) = true :=
          ih (ci + 1) (si + 1) (t + 3600) (some (Ev.countdown v t)) (by simp) (by simp)
        have hmid :
            cycleOk (some (Ev.check false))
              (Ev.countdown v t ::
                (countdownTrace taken sendOk u (ci + 1) (si + 1) (t + 3600) rest).1) = true := by
          simpa [cycleOk] using htail
        simp only [countdownTrace, hc', Bool.false_eq_true, if_false]
        match prev, hprev, hfin with
        | some (Ev.check true), hprev, _ => exact absurd rfl hprev
        | some (Ev.final a), _, hfin => exact absurd rfl (hfin a)
        | some (Ev.check false), _, _ => simpa [cycleOk] using hmid
        | none, _, _ => simpa [cycleOk, Ev.isSend] using hmid
        | some (Ev.countdown a b), _, _ => simpa [cycleOk, Ev.isSend] using hmid

/-- Every trace a full user cycle can produce is sane. -/
lemma cycleTrace_cycleOk (taken sendOk : Nat → Bool) (now : DateTime) (u : User)
    (tr : List Ev) (h : cycleTrace taken sendOk now u = Except.ok tr) :
    cycleOk none tr = true := by
  unfold cycleTrace userCycle at h
  match hp : strptimeHM u.med_time with
  | none => rw [hp] at h; exact absurd h (by simp [Except.map])
  | some tm =>
      rw [hp] at h
      simp only at h
      by_cases h0 : taken 0
      · simp only [h0, if_true, Except.map] at h
        cases h
        simp [cycleOk, Ev.isSend]
      · have h0' : taken 0 = false := by simpa using h0
        simp only [h0', Bool.false_eq_true, if_false] at h
        by_cases hpos :
            0 < hoursUntil (timeRemaining now (nextOccurrence tm now))
        · simp only [hpos, if_true, Except.map] at h
          cases h
          have := countdownTrace_cycleOk taken sendOk u
            (rangeDown (hoursUntil (timeRemaining now (nextOccurrence tm now))))
            1 0 0 (some (Ev.check false)) (by simp)
          simpa [cycleOk, Ev.isSend] using this
        · simp only [hpos, if_false] at h
          by_cases hrem :
              timeRemaining now (nextOccurrence tm now) ≤ 3600
          · simp only [hrem, if_true] at h
            by_cases h1 : taken 1
            · simp only [h1, if_true, Except.map] at h
              cases h
              simp [cycleOk, Ev.isSend]
            · have h1' : taken 1 = false := by simpa using h1
              simp only [h1', Bool.false_eq_true, if_false, Except.map] at h
              cases h
              simp [cycleOk, Ev.isSend]
          · simp only [hrem, if_false, Except.map] at h
            cases h
            simp [cycleOk, Ev.isSend]


/-- Floor-division bounds: `hours_until` is the floor of
`remaining / 3600`. -/
lemma hoursUntil_bounds (rem : Int) :
    3600 * hoursUntil rem ≤ rem ∧ rem < 3600 * (hoursUntil rem + 1) := by
  have h1 := Int.fmod_add_fdiv rem 3600
  have h2 := Int.fmod_nonneg' rem (show (0 : Int) < 3600 by decide)
  have h3 := Int.fmod_lt_of_pos rem (show (0 : Int) < 3600 by decide)
  unfold hoursUntil
  omega

lemma hoursUntil_eq_zero_iff (rem : Int) :
    hoursUntil rem = 0 ↔ 0 ≤ rem ∧ rem < 3600 := by
  have := hoursUntil_bounds rem
  omega

/-- A successfully parsed `%H:%M` time is a valid 24-hour time. -/
lemma strptimeHM_bounds {s : String} {tm : Tod} (h : strptimeHM s = some tm) :
    tm.hour ≤ 23 ∧ tm.minute ≤ 59 := by
  unfold strptimeHM at h
  split at h
  · exact absurd h (by simp)
  · split at h
    · exact absurd h (by simp)
    · split at h
      · rename_i hcond
        rw [Option.some.injEq] at h
        subst h
        simpa using hcond
      · exact absurd h (by simp)
    · exact absurd h (by simp)
  · exact absurd h (by simp)

/-- Where the countdown sends sit in time: the k-th is `3600 k` seconds
after the loop began. -/
lemma mem_fullTr_countdown :
    ∀ (hs : List Int) (t v s : Int), Ev.countdown v s ∈ fullTr hs t →
      ∃ k : Nat, k < hs.length ∧ s = t + 3600 * k := by
  intro hs
  induction hs with
  | nil => intro t v s hm; exact absurd hm (by simp [fullTr])
  | cons w rest ih =>
      intro t v s hm
      simp only [fullTr, List.mem_cons] at hm
      rcases hm with h | h | h
      · exact absurd h (by simp)
      · injection h with hv hs2
        exact ⟨0, by simp, by push_cast; omega⟩
      · obtain ⟨k, hk, hs'⟩ := ih (t + 3600) v s h
        exact ⟨k + 1, by simpa using Nat.succ_lt_succ hk, by push_cast; omega⟩

/-- The hourly countdown never emits a final reminder. -/
lemma final_not_mem_fullTr :
    ∀ (hs : List Int) (t s : Int), Ev.final s ∉ fullTr hs t := by
  intro hs
  induction hs with
  | nil => intro t s; simp [fullTr]
  | cons w rest ih =>
      intro t s
      simp only [fullTr, List.mem_cons]
      push_neg
      exact ⟨by simp, by simp, ih (t + 3600) s⟩

/-- The countdown loop makes the same checks and sends whatever the
notification transport reports: `send_email` outcomes never feed back. -/
lemma countdownTrace_sendOk_irrel (taken s1 s2 : Nat → Bool) (u : User) :
    ∀ (hs : List Int) (ci si : Nat) (t : Int),
      (countdownTrace taken s1 u ci si t hs).1 =
        (countdownTrace taken s2 u ci si t hs).1 := by
  intro hs
  induction hs with
  | nil => intro ci si t; rfl
  | cons v rest ih =>
      intro ci si t
      by_cases hc : taken ci
      · simp [countdownTrace, hc]
      · have hc' : taken ci = false := by simpa using hc
        simp only [countdownTrace, hc', Bool.false_eq_true, if_false,
          List.cons.injEq, true_and]
        exact ih (ci + 1) (si + 1) (t + 3600)

/-- The whole cycle makes the same checks and sends whatever the
notification transport reports. -/
lemma cycleTrace_sendOk_irrel (taken s1 s2 : Nat → Bool) (now : DateTime) (u : User) :
    cycleTrace taken s1 now u = cycleTrace taken s2 now u := by
  unfold cycleTrace userCycle
  cases hp : strptimeHM u.med_time with
  | none => rfl
  | some tm =>
      simp only
      by_cases h0 : taken 0
      · simp [h0]
      · have h0' : taken 0 = false := by simpa using h0
        simp only [h0', Bool.false_eq_true, if_false]
        by_cases hpos : 0 < hoursUntil (timeRemaining now (nextOccurrence tm now))
        · simp only [hpos, if_true, Except.map]
          rw [countdownTrace_sendOk_irrel taken s1 s2 u]
        · simp only [hpos, if_false]
          by_cases hrem : timeRemaining now (nextOccurrence tm now) ≤ 3600
          · by_cases h1 : taken 1
            · simp [hrem, h1, Except.map]
            · simp [hrem, h1, Except.map]
          · simp [hrem, Except.map]

/-- In a sane trace nothing follows a `final`. -/
lemma cycleOk_final_is_last :
    ∀ (pre : List Ev) (prev : Option Ev) (t : Int) (suf : List Ev),
      cycleOk prev (pre ++ Ev.final t :: suf) = true → suf = [] := by
  intro pre
  induction pre with
  | nil =>
      intro prev t suf hok
      simp only [List.nil_append, cycleOk] at hok
      have htail : cycleOk (some (Ev.final t)) suf = true := by
        match prev, hok with
        | some (Ev.check true), hok => exact absurd hok (by simp)
        | some (Ev.final a), hok => exact absurd hok (by simp)
        | some (Ev.check false), hok => exact hok
        | none, hok => simp only [Bool.and_eq_true] at hok; exact hok.2
        | some (Ev.countdown a b), hok => simp only [Bool.and_eq_true] at hok; exact hok.2
      match suf, htail with
      | [], _ => rfl
      | e :: suf, htail => exact absurd htail (by simp [cycleOk])
  | cons x pre ih =>
      intro prev t suf hok
      have hrest : cycleOk (some x) (pre ++ Ev.final t :: suf) = true := by
        simp only [List.cons_append, cycleOk] at hok
        match prev, hok with
        | some (Ev.check true), hok => exact absurd hok (by simp)
        | some (Ev.final a), hok => exact absurd hok (by simp)
        | some (Ev.check false), hok => exact hok
        | none, hok => simp only [Bool.and_eq_true] at hok; exact hok.2
        | some (Ev.countdown a b), hok => simp only [Bool.and_eq_true] at hok; exact hok.2
      exact ih (some x) t suf hrest

/-- Claim C5: for every `medication_time` and `now`, the next occurrence
falls on the same calendar day when `now ≤ candidate` (boundary included:
the comparison in the code is strict `>`), and on the next calendar day
when `now > candidate`. Stated as one equation: the rolled occurrence
keeps the candidate when `now` has not passed it, and moves to
`now.day + 1` otherwise. The candidate itself always carries today's
calendar day. -/
theorem claim_C5_next_occurrence (tm : Tod) (now : DateTime) :
    (medTimeToday now tm).day = now.day ∧
    nextOccurrence tm now =
      (if now.toSecs ≤ (medTimeToday now tm).toSecs then medTimeToday now tm
       else ⟨now.day + 1, (medTimeToday now tm).sec⟩) := by
  refine ⟨rfl, ?_⟩
  unfold nextOccurrence
  by_cases hlt : (medTimeToday now tm).toSecs < now.toSecs
  · rw [if_pos hlt, if_neg (by omega)]
    rfl
  · rw [if_neg hlt, if_pos (by omega)]


/-- Claim C4: a user whose first `has_taken_medication` query of the
cycle answers true receives zero notifications in that sweep cycle: the
cycle's trace is the single positive check and its send list is empty. -/
theorem claim_C4_satisfied_user_gets_nothing
    (taken sendOk : Nat → Bool) (now : DateTime) (u : User) (tm : Tod)
    (hparse : strptimeHM u.med_time = some tm) (h0 : taken 0 = true) :
    cycleTrace taken sendOk now u = Except.ok [Ev.check true] ∧
    cycleSends taken sendOk now u = Except.ok [] := by
  unfold cycleTrace cycleSends userCycle
  rw [hparse]
  simp [h0, Except.map, List.filter, Ev.isSend]

/-- Witness for C4 at a concrete input. -/
theorem claim_C4_witness :
    cycleTrace (fun _ => true) neverTaken ⟨0, 19800⟩ sampleUser =
      Except.ok [Ev.check true] ∧
    cycleSends (fun _ => true) neverTaken ⟨0, 19800⟩ sampleUser =
      Except.ok [] :=
  claim_C4_satisfied_user_gets_nothing (fun _ => true) neverTaken
    ⟨0, 19800⟩ sampleUser ⟨8, 0⟩ (by decide) rfl

/-- Claim C2: a user not yet medicated (both adherence queries of the
cycle answer false) whose `hours_until` is 0 gets exactly one final
"time to take it now" notification, sent at the very start of the cycle
with nothing before it, and the cycle then stops. -/
theorem claim_C2_final_reminder
    (taken sendOk : Nat → Bool) (now : DateTime) (u : User) (tm : Tod)
    (hparse : strptimeHM u.med_time = some tm)
    (h0 : taken 0 = false) (h1 : taken 1 = false)
    (hz : hoursUntil (timeRemaining now (nextOccurrence tm now)) = 0) :
    cycleTrace taken sendOk now u =
      Except.ok [Ev.check false, Ev.check false, Ev.final 0] ∧
    cycleSends taken sendOk now u = Except.ok [Ev.final 0] := by
  have hrem := (hoursUntil_eq_zero_iff
    (timeRemaining now (nextOccurrence tm now))).mp hz
  unfold cycleTrace cycleSends userCycle
  rw [hparse]
  simp only [h0, Bool.false_eq_true, if_false, hz, lt_irrefl,
    if_neg (lt_irrefl 0), h1]
  rw [if_pos (by omega)]
  simp [Except.map, List.filter, Ev.isSend]

/-- Witness for C2 at a concrete input (07:13:20 for an 08:00 schedule:
2800 seconds remain, `hours_until = 0`). -/
theorem claim_C2_witness :
    cycleTrace neverTaken neverTaken ⟨0, 26000⟩ sampleUser =
      Except.ok [Ev.check false, Ev.check false, Ev.final 0] ∧
    cycleSends neverTaken neverTaken ⟨0, 26000⟩ sampleUser =
      Except.ok [Ev.final 0] :=
  claim_C2_final_reminder neverTaken neverTaken ⟨0, 26000⟩ sampleUser
    ⟨8, 0⟩ (by decide) rfl rfl (by decide)

/-- Claim C9: a failed notification send is caught inside `send_email`
(it always returns normally, never propagating to the sweep driver), and
the transport outcomes have no effect on the decision state: the cycle
performs exactly the same checks and sends whatever the outcomes are,
with no retry and no resend. -/
theorem claim_C9_send_failure_isolated :
    (∀ (ok : Bool) (to_email : String), (send_email ok to_email).isOk = true) ∧
    (∀ (taken s1 s2 : Nat → Bool) (now : DateTime) (u : User),
        cycleTrace taken s1 now u = cycleTrace taken s2 now u) := by
  constructor
  · intro ok e
    cases ok <;> rfl
  · exact cycleTrace_sendOk_irrel

/-- Claim C7 (the code violates it): a user whose `medication_time` does
not parse makes `strptime` raise an uncaught `ValueError` on line 55,
which aborts the entire sweep — the bad user is not skipped and the users
after it are never processed (the sweep returns an error instead of a
result list). -/
theorem claim_C7_unparseable_time_crashes_sweep :
    strptimeHM badUser.med_time = none ∧
    check_reminders (fun _ _ => false) (fun _ _ => false) ⟨0, 19800⟩
      [badUser, sampleUser] 0 = Except.error () ∧
    check_reminders (fun _ _ => false) (fun _ _ => false) ⟨0, 19800⟩
      [sampleUser] 0 ≠ Except.error () := by
  refine ⟨by decide, by decide, by decide⟩

/-- Claim C8 counterexample: `has_taken_medication` only lower-bounds the
timestamp (`timestamp >= "YYYY-MM-DD"`), so a future-dated entry (here
dated tomorrow) makes it answer true even though no entry lies in the
start-of-day..now window the claim describes. -/
theorem claim_C8_counterexample :
    has_taken_medication futureLog "2026-10-12" 1 = true ∧
    hasTakenTodaySpec futureLog "2026-10-12" "2026-10-12 10:00" 1 = false := by
  refine ⟨by decide, by decide⟩

/-- Claim C8 as amended: `has_taken_medication` answers true iff some log
entry of the user has action `"medication"` and timestamp at or after the
start of the current local calendar day — with no upper bound, so entries
timestamped after `now` also count. -/
theorem claim_C8_amended (logs : List LogEntry) (todayStr : String) (uid : Nat) :
    has_taken_medication logs todayStr uid = true ↔
      ∃ e ∈ logs, e.user_id = uid ∧ e.action = "medication" ∧
        strLe todayStr e.timestamp = true := by
  unfold has_taken_medication
  rw [decide_eq_true_eq, gt_iff_lt, List.length_pos]
  constructor
  · intro hne
    obtain ⟨e, he⟩ := List.exists_mem_of_ne_nil _ hne
    rw [List.mem_filter] at he
    obtain ⟨hmem, hp⟩ := he
    simp only [Bool.and_eq_true, beq_iff_eq] at hp
    exact ⟨e, hmem, hp.1.1, hp.1.2, hp.2⟩
  · intro ⟨e, hmem, h1, h2, h3⟩
    intro hnil
    have : e ∈ List.filter (fun e =>
        e.user_id == uid && e.action == "medication" && strLe todayStr e.timestamp) logs := by
      rw [List.mem_filter]
      exact ⟨hmem, by simp [h1, h2, h3]⟩
    rw [hnil] at this
    exact absurd this (List.not_mem_nil e)

/-- Witness exercising the amended C8 statement at a concrete input. -/
theorem claim_C8_amended_witness :
    has_taken_medication futureLog "2026-10-12" 1 = true :=
  (claim_C8_amended futureLog "2026-10-12" 1).mpr
    ⟨⟨1, "medication", "2026-10-13 00:05"⟩, by decide, by decide, by decide, by decide⟩

/-- Claim C1: for a user whose adherence queries all answer false and for
whom the engine computes `hours_until = h ≥ 1`, exactly `h` countdown
notifications are sent, carrying the decreasing hour counts
`h, h-1, …, 1` at one-hour intervals (the k-th at offset `3600·k`); and
if a medication entry appears mid-cycle (the j-th query is the first to
answer true, `1 ≤ j ≤ h`), the countdown stops right after that check:
only the first `j-1` countdown notifications are sent and nothing
follows. -/
theorem claim_C1_hourly_countdown
    (taken sendOk : Nat → Bool) (now : DateTime) (u : User) (tm : Tod) (h : Int)
    (hparse : strptimeHM u.med_time = some tm)
    (hh : hoursUntil (timeRemaining now (nextOccurrence tm now)) = h)
    (hpos : 1 ≤ h) :
    ((∀ i, taken i = false) →
       cycleSends taken sendOk now u =
         Except.ok ((List.range h.toNat).map
           (fun k : Nat => Ev.countdown (h - (k : Int)) (3600 * (k : Int))))) ∧
    (∀ j : Nat, 1 ≤ j → j ≤ h.toNat →
       (∀ i, i < j → taken i = false) → taken j = true →
       cycleSends taken sendOk now u =
         Except.ok ((List.range (j - 1)).map
           (fun k : Nat => Ev.countdown (h - (k : Int)) (3600 * (k : Int))))) := by
  have hpos' : 0 < hoursUntil (timeRemaining now (nextOccurrence tm now)) := by omega
  constructor
  · intro hall
    unfold cycleSends userCycle
    rw [hparse]
    simp only [hall 0, Bool.false_eq_true, if_false, hpos', if_true]
    rw [countdownTrace_all_false taken sendOk u _ 1 0 0
      (fun k _ => hall (1 + k))]
    simp only [Except.map, List.filter, Ev.isSend, Bool.false_eq_true,
      fullTr_filter_isSend, sendsOf_rangeDown, hh]
    congr 1
    apply List.map_congr_left
    intro k _
    simp
  · intro j hj1 hjh hf htrue
    unfold cycleSends userCycle
    rw [hparse]
    simp only [hf 0 (by omega), Bool.false_eq_true, if_false, hpos', if_true]
    rw [countdownTrace_first_true taken sendOk u _ (j - 1) 1 0 0
      (by rw [rangeDown_length]; omega)
      (fun k hk => hf (1 + k) (by omega))
      (by rw [show 1 + (j - 1) = j by omega]; exact htrue)]
    simp only [Except.map, List.filter, Ev.isSend, Bool.false_eq_true,
      List.filter_append, fullTr_filter_isSend]
    rw [show (rangeDown (hoursUntil (timeRemaining now (nextOccurrence tm now)))).take (j - 1)
        = rangeDownAux (hoursUntil (timeRemaining now (nextOccurrence tm now))) (j - 1) from
      rangeDownAux_take (j - 1) _ _ (by omega)]
    simp only [sendsOf_rangeDownAux, hh]
    congr 1
    · simp [List.filter]
    
/-- Witness for C1 at a concrete input: 05:30 for an 08:00 schedule gives
`hours_until = 2`; with no adherence both countdown reminders go out;
with adherence appearing before the second in-loop check (third query
overall) only the first goes out. -/
theorem claim_C1_witness :
    cycleSends neverTaken neverTaken ⟨0, 19800⟩ sampleUser =
      Except.ok [Ev.countdown 2 0, Ev.countdown 1 3600] ∧
    cycleSends takenFromThird neverTaken ⟨0, 19800⟩ sampleUser =
      Except.ok [Ev.countdown 2 0] := by
  constructor
  · have h := (claim_C1_hourly_countdown neverTaken neverTaken ⟨0, 19800⟩ sampleUser
      ⟨8, 0⟩ 2 (by decide) (by decide) (by decide)).1 (fun i => rfl)
    exact h.trans (by decide)
  · have h := (claim_C1_hourly_countdown takenFromThird neverTaken ⟨0, 19800⟩ sampleUser
      ⟨8, 0⟩ 2 (by decide) (by decide) (by decide)).2 2 (by decide) (by decide)
      (fun i hi => by
        simp only [takenFromThird]
        exact decide_eq_false (by omega))
      rfl
    exact h.trans (by decide)

/-- Claim C3: in any cycle trace, every notification send is immediately
preceded by an adherence check that answered false (the engine re-checks
`has_taken_today` right before every send), and nothing at all follows a
check that answered true — from the first true check no further
notification of any kind is sent in the cycle. -/
theorem claim_C3_recheck_before_every_send
    (taken sendOk : Nat → Bool) (now : DateTime) (u : User) (tr : List Ev)
    (htr : cycleTrace taken sendOk now u = Except.ok tr) :
    (∀ pre e suf, tr = pre ++ e :: suf → e.isSend = true →
        pre.getLast? = some (Ev.check false)) ∧
    (∀ pre suf, tr = pre ++ Ev.check true :: suf → suf = []) := by
  have hok := cycleTrace_cycleOk taken sendOk now u tr htr
  constructor
  · intro pre e suf heq hsend
    rcases cycleOk_send_preceded pre none e suf (heq ▸ hok) hsend with ⟨_, hnone⟩ | hlast
    · exact absurd hnone (by simp)
    · exact hlast
  · intro pre suf heq
    exact cycleOk_true_is_last pre none suf (heq ▸ hok)

/-- Witness for C3 at a concrete input whose cycle trace is
`[check false, check false, countdown 2 0, check true]`. -/
theorem claim_C3_witness :
    ([Ev.check false, Ev.check false].getLast? = some (Ev.check false)) ∧
    ([] : List Ev) = [] := by
  have h := claim_C3_recheck_before_every_send takenFromThird neverTaken
    ⟨0, 19800⟩ sampleUser
    [Ev.check false, Ev.check false, Ev.countdown 2 0, Ev.check true] (by decide)
  exact ⟨h.1 [Ev.check false, Ev.check false] (Ev.countdown 2 0) [Ev.check true] rfl rfl,
    h.2 [Ev.check false, Ev.check false, Ev.countdown 2 0] [] rfl⟩

/-- Claim C6: when medication is never logged and the user's scheduled
time already passed at check time (so `next_occurrence` was rolled to
tomorrow), every reminder of the cycle is sent strictly before the
rolled occurrence — nothing is sent after the scheduled time within the
cycle — and nothing follows a final reminder in the trace: the cycle
terminates and no further reminders occur until the next sweep. -/
theorem claim_C6_cycle_ends_before_occurrence
    (taken sendOk : Nat → Bool) (now : DateTime) (u : User) (tm : Tod) (tr : List Ev)
    (hparse : strptimeHM u.med_time = some tm)
    (hsec0 : 0 ≤ now.sec) (hsec1 : now.sec < 86400)
    (hpassed : (medTimeToday now tm).toSecs < now.toSecs)
    (hnever : ∀ i, taken i = false)
    (htr : cycleTrace taken sendOk now u = Except.ok tr) :
    (∀ hour t, Ev.countdown hour t ∈ tr →
        now.toSecs + t < (nextOccurrence tm now).toSecs) ∧
    (∀ t, Ev.final t ∈ tr → now.toSecs + t < (nextOccurrence tm now).toSecs) ∧
    (∀ pre t suf, tr = pre ++ Ev.final t :: suf → suf = []) := by
  have hok := cycleTrace_cycleOk taken sendOk now u tr htr
  have hfinlast : ∀ pre t suf, tr = pre ++ Ev.final t :: suf → suf = [] :=
    fun pre t suf heq => cycleOk_final_is_last pre none t suf (heq ▸ hok)
  have hb := strptimeHM_bounds hparse
  have hocc : (nextOccurrence tm now).toSecs = (medTimeToday now tm).toSecs + 86400 := by
    unfold nextOccurrence
    rw [if_pos hpassed]
    unfold DateTime.toSecs
    ring
  have hcand : (medTimeToday now tm).toSecs =
      now.day * 86400 + ((tm.hour : Int) * 3600 + (tm.minute : Int) * 60) := rfl
  have hnowsecs : now.toSecs = now.day * 86400 + now.sec := rfl
  have hhour : (tm.hour : Int) ≤ 23 := by exact_mod_cast hb.1
  have hminute : (tm.minute : Int) ≤ 59 := by exact_mod_cast hb.2
  have hhour0 : 0 ≤ (tm.hour : Int) := Int.ofNat_nonneg _
  have hminute0 : 0 ≤ (tm.minute : Int) := Int.ofNat_nonneg _
  have hremval : timeRemaining now (nextOccurrence tm now) =
      (medTimeToday now tm).toSecs + 86400 - now.toSecs := by
    unfold timeRemaining
    rw [hocc]
  have hrempos : 0 < timeRemaining now (nextOccurrence tm now) := by
    rw [hremval]
    omega
  have hHb := hoursUntil_bounds (timeRemaining now (nextOccurrence tm now))
  unfold cycleTrace userCycle at htr
  rw [hparse] at htr
  simp only [hnever 0, Bool.false_eq_true, if_false] at htr
  by_cases hpos : 0 < hoursUntil (timeRemaining now (nextOccurrence tm now))
  · rw [if_pos hpos,
      countdownTrace_all_false taken sendOk u _ 1 0 0 (fun k _ => hnever (1 + k))] at htr
    simp only [Except.map, Except.ok.injEq] at htr
    subst htr
    refine ⟨?_, ?_, hfinlast⟩
    · intro hour t hmem
      rcases List.mem_cons.mp hmem with hhead | htail
      · exact absurd hhead (by simp)
      · obtain ⟨k, hk, ht⟩ := mem_fullTr_countdown _ 0 hour t htail
        rw [rangeDown_length] at hk
        have hrem3600 :
            3600 * hoursUntil (timeRemaining now (nextOccurrence tm now)) ≤
              timeRemaining now (nextOccurrence tm now) := hHb.1
        have hkint : (k : Int) <
            hoursUntil (timeRemaining now (nextOccurrence tm now)) := by
          exact_mod_cast Int.lt_toNat.mp (by exact_mod_cast hk)
        have : now.toSecs + t < now.toSecs +
            timeRemaining now (nextOccurrence tm now) := by omega
        unfold timeRemaining at this
        omega
    · intro t hmem
      rcases List.mem_cons.mp hmem with hhead | htail
      · exact absurd hhead (by simp)
      · exact absurd htail (final_not_mem_fullTr _ 0 t)
  · have hH0 : hoursUntil (timeRemaining now (nextOccurrence tm now)) = 0 := by omega
    have hremle : timeRemaining now (nextOccurrence tm now) ≤ 3600 := by omega
    rw [if_neg hpos, if_pos hremle] at htr
    simp only [hnever 1, Bool.false_eq_true, if_false, Except.map, Except.ok.injEq] at htr
    subst htr
    refine ⟨?_, ?_, hfinlast⟩
    · intro hour t hmem
      simp at hmem
    · intro t hmem
      have ht : t = 0 := by
        rcases List.mem_cons.mp hmem with hh | hmem2
        · exact absurd hh (by simp)
        rcases List.mem_cons.mp hmem2 with hh | hmem3
        · exact absurd hh (by simp)
        rcases List.mem_cons.mp hmem3 with hh | hmem4
        · exact Ev.final.inj hh
        · exact absurd hmem4 (by simp)
      subst ht
      have : now.toSecs + 0 < now.toSecs +
          timeRemaining now (nextOccurrence tm now) := by omega
      unfold timeRemaining at this
      omega

/-- Witness for C6 at a concrete input: 23:36:40 for a 00:30 schedule —
the time passed, the occurrence rolled to tomorrow 00:30, the trace is a
single final reminder sent before the rolled occurrence and last in the
trace. -/
theorem claim_C6_witness :
    (DateTime.toSecs ⟨0, 85000⟩ + 0 <
      (nextOccurrence ⟨0, 30⟩ ⟨0, 85000⟩).toSecs) ∧
    ([] : List Ev) = [] := by
  have h := claim_C6_cycle_ends_before_occurrence neverTaken neverTaken
    ⟨0, 85000⟩ sampleUserB ⟨0, 30⟩ [Ev.check false, Ev.check false, Ev.final 0]
    (by decide) (by decide) (by decide) (by decide) (fun i => rfl) (by decide)
  exact ⟨h.2.1 0 (by decide),
    h.2.2 [Ev.check false, Ev.check false] 0 [] rfl⟩

/-- Claim C10: one sweep reads the clock once — every user's schedule is
computed from the sweep-start `now`. However delayed a user's processing
is by earlier users' hour-long countdown sleeps (any `elapsed` offset),
the per-user traces of the sweep equal those of running each user's
decision cycle independently at the sweep-start timestamp, never a
re-read clock. -/
theorem claim_C10_one_clock_read_per_sweep
    (taken sendOk : Nat → Nat → Bool) (now : DateTime)
    (users : List User) (elapsed : Int) :
    Except.map (List.map (fun r : Int × List Ev × List String => r.2.1))
        (check_reminders taken sendOk now users elapsed) =
      enginePerUser taken sendOk now users := by
  induction users generalizing elapsed with
  | nil => rfl
  | cons u rest ih =>
      simp only [check_reminders, enginePerUser]
      cases hc : userCycle (taken u.id) (sendOk u.id) now u with
      | error e =>
          have hct : cycleTrace (taken u.id) (sendOk u.id) now u = Except.error e := by
            unfold cycleTrace
            rw [hc]
            rfl
          rw [hct]
          simp [Except.map]
      | ok pr =>
          obtain ⟨tr, logs⟩ := pr
          have hct : cycleTrace (taken u.id) (sendOk u.id) now u = Except.ok tr := by
            unfold cycleTrace
            rw [hc]
            rfl
          rw [hct]
          dsimp only
          have hrec := ih (elapsed + cycleDuration tr)
          cases hr : check_reminders taken sendOk now rest (elapsed + cycleDuration tr) with
          | error e2 =>
              rw [hr] at hrec
              simp only [Except.map] at hrec
              rw [← hrec]
              simp [Except.map]
          | ok rs =>
              rw [hr] at hrec
              simp only [Except.map] at hrec
              rw [← hrec]
              simp [Except.map]
end MedBot
